import Mathlib

/-!
Shallow embedding of `MetricCalculator/metrics.py`.

Python strings are modelled as `List Char`; the ASCII fragments of Python's
`str.lower` (`Char.toLower`), of the regex classes `\w` (alphanumeric or `_`)
and `\s` (`Char.isWhitespace`), and of `str.splitlines` (split at `'\n'`) stand
in for their Unicode versions.  Ratios computed by float division in Python are
modelled exactly in `ℚ`.
-/

/-- The regex class `\w` used by `normalize_text`: alphanumeric or underscore. -/
def isWordChar (c : Char) : Bool := c.isAlphanum || c == '_'

/-- A character survives `re.sub(r"[^\w\s]", "", text)`: it is kept iff it is a
word character or whitespace. -/
def keepChar (c : Char) : Bool := isWordChar c || c.isWhitespace

/-- `re.sub(r"\s+", " ", text)`: every maximal run of whitespace characters is
replaced by a single ASCII space. -/
def collapseWs : List Char → List Char
  | [] => []
  | [c] => if c.isWhitespace then [' '] else [c]
  | c :: d :: rest =>
    if c.isWhitespace then
      (if d.isWhitespace then collapseWs (d :: rest) else ' ' :: collapseWs (d :: rest))
    else c :: collapseWs (d :: rest)

/-- Python `str.strip()`: remove leading and trailing whitespace. -/
def pstrip (l : List Char) : List Char :=
  ((l.dropWhile Char.isWhitespace).reverse.dropWhile Char.isWhitespace).reverse

/-- `normalize_text` from `metrics.py`: optional lowercasing, punctuation
stripping, and whitespace collapsing with trim, applied in that order. -/
def normalize_text (text : List Char)
    (lowercase strip_punct normalize_whitespace : Bool) : List Char :=
  let t1 := if lowercase then text.map Char.toLower else text
  let t2 := if strip_punct then t1.filter keepChar else t1
  if normalize_whitespace then pstrip (collapseWs t2) else t2

/-- Python `str.split()` with no separator: split on runs of whitespace,
producing no empty tokens. -/
def splitWords : List Char → List (List Char)
  | [] => []
  | c :: cs =>
    if c.isWhitespace then splitWords cs
    else
      match cs, splitWords cs with
      | [], _ => [[c]]
      | d :: _, r =>
        if d.isWhitespace then [c] :: r
        else
          match r with
          | [] => [[c]]  -- unreachable: splitting a list that starts with a non-whitespace character is nonempty
          | p :: ps => (c :: p) :: ps

/-- `tokenize_words` from `metrics.py`. -/
def tokenize_words (text : List Char) : List (List Char) :=
  if text.isEmpty then [] else splitWords text

/-- A sentence-terminator character, the regex class `[.!?]`. -/
def isTerm (c : Char) : Bool := c == '.' || c == '!' || c == '?'

/-- `re.split(r"[.!?]+", text)`: the pieces between maximal runs of
sentence terminators (the greedy `+` merges consecutive terminators into a
single separator, so no empty piece arises between two terminators). -/
def splitTerms : List Char → List (List Char)
  | [] => [[]]
  | c :: cs =>
    if isTerm c then
      match cs with
      | [] => [[], []]
      | d :: _ => if isTerm d then splitTerms cs else [] :: splitTerms cs
    else
      match splitTerms cs with
      | [] => [[c]]  -- unreachable: splitTerms never returns []
      | p :: ps => (c :: p) :: ps

/-- Python `str.splitlines()` on the ASCII fragment: split at `'\n'`, with no
entry for a trailing newline. -/
def splitlines : List Char → List (List Char)
  | [] => []
  | c :: cs =>
    if c == '\n' then [] :: splitlines cs
    else
      match splitlines cs with
      | [] => [[c]]
      | p :: ps => (c :: p) :: ps

/-- `split_sentences` from `metrics.py`. -/
def split_sentences (text : List Char) (method : String) : List (List Char) :=
  if text.isEmpty then []
  else if method = "newline" then
    ((splitlines text).map pstrip).filter (fun p => !p.isEmpty)
  else
    ((splitTerms text).filter (fun p => !p.isEmpty && !(pstrip p).isEmpty)).map pstrip

/-- Substitution cost in the dynamic program: `0 if seq1[i - 1] == sj else 1`. -/
def levCost {α : Type} [DecidableEq α] (a b : α) : ℕ := if a = b then 0 else 1

/-- The inner `for i in range(1, n + 1)` loop of `_levenshtein_distance`:
given the previous row (starting at entry `i - 1`) and the entry to the left,
produce entries `1..n` of the current row. -/
def rowAux {α : Type} [DecidableEq α] (sj : α) : List α → List ℕ → ℕ → List ℕ
  | [], _, _ => []
  | _ :: _, [], _ => []
  | _ :: _, [_], _ => []
  | a :: as, d :: u :: rest, left =>
    let cur := min (min (u + 1) (left + 1)) (d + levCost a sj)
    cur :: rowAux sj as (u :: rest) cur

/-- The outer `for j in range(1, m + 1)` loop of `_levenshtein_distance`,
carrying the previous row and the column index `j`. -/
def levLoop {α : Type} [DecidableEq α] (s1 : List α) : List α → List ℕ → ℕ → List ℕ
  | [], prev, _ => prev
  | sj :: rest, prev, j => levLoop s1 rest (j :: rowAux sj s1 prev j) (j + 1)

/-- The non-degenerate body of `_levenshtein_distance`: run the row loop
starting from `previous = list(range(n + 1))` and read entry `n` of the final
row. -/
def levCore {α : Type} [DecidableEq α] (s1 s2 : List α) : ℕ :=
  (levLoop s1 s2 (List.range (s1.length + 1)) 1).getD s1.length 0

/-- `_levenshtein_distance` from `metrics.py`: empty-sequence shortcuts, then
the operands are swapped so the shorter sequence indexes the rows. -/
def levenshtein_distance {α : Type} [DecidableEq α] (seq1 seq2 : List α) : ℕ :=
  if seq1.length = 0 then seq2.length
  else if seq2.length = 0 then seq1.length
  else if seq1.length > seq2.length then levCore seq2 seq1
  else levCore seq1 seq2

/-- `wer` from `metrics.py`.  The float ratio is modelled in `ℚ`. -/
def wer (ref_text hyp_text : List Char)
    (lowercase strip_punct normalize_whitespace : Bool) : ℚ × ℕ × ℕ :=
  let ref_tokens := tokenize_words (normalize_text ref_text lowercase strip_punct normalize_whitespace)
  let hyp_tokens := tokenize_words (normalize_text hyp_text lowercase strip_punct normalize_whitespace)
  let ref_len := ref_tokens.length
  let edits := levenshtein_distance ref_tokens hyp_tokens
  if ref_len = 0 then ((if hyp_tokens.length = 0 then (0 : ℚ) else 1), edits, ref_len)
  else ((edits : ℚ) / (ref_len : ℚ), edits, ref_len)

/-- `cer` from `metrics.py`.  With `include_spaces = false` every whitespace
character is removed (`re.sub(r"\s+", "", ...)`) before comparing character
lists. -/
def cer (ref_text hyp_text : List Char)
    (lowercase strip_punct normalize_whitespace include_spaces : Bool) : ℚ × ℕ × ℕ :=
  let ref_norm := normalize_text ref_text lowercase strip_punct normalize_whitespace
  let hyp_norm := normalize_text hyp_text lowercase strip_punct normalize_whitespace
  let ref_chars := if include_spaces then ref_norm else ref_norm.filter (fun c => !c.isWhitespace)
  let hyp_chars := if include_spaces then hyp_norm else hyp_norm.filter (fun c => !c.isWhitespace)
  let ref_len := ref_chars.length
  let edits := levenshtein_distance ref_chars hyp_chars
  if ref_len = 0 then ((if hyp_chars.length = 0 then (0 : ℚ) else 1), edits, ref_len)
  else ((edits : ℚ) / (ref_len : ℚ), edits, ref_len)

/-- The sentence pipeline of `ser`: normalize with `strip_punct` forced off,
split into sentences, then re-normalize each sentence with the caller's actual
`strip_punct` (`_norm_sent`). -/
def serSents (text : List Char)
    (lowercase strip_punct normalize_whitespace : Bool) (sentence_split : String) :
    List (List Char) :=
  (split_sentences (normalize_text text lowercase false normalize_whitespace) sentence_split).map
    (fun s => normalize_text s lowercase strip_punct normalize_whitespace)

/-- The error-counting loop of `ser`: reference sentence `i` is an error when
the hypothesis has no sentence at `i` or differs from it there. -/
def serErrors : List (List Char) → List (List Char) → ℕ
  | [], _ => 0
  | _ :: rs, [] => 1 + serErrors rs []
  | r :: rs, h :: hs => (if h = r then 0 else 1) + serErrors rs hs

/-- `ser` from `metrics.py`. -/
def ser (ref_text hyp_text : List Char)
    (lowercase strip_punct normalize_whitespace : Bool) (sentence_split : String) :
    ℚ × ℕ × ℕ :=
  let ref_sents := serSents ref_text lowercase strip_punct normalize_whitespace sentence_split
  let hyp_sents := serSents hyp_text lowercase strip_punct normalize_whitespace sentence_split
  let total := ref_sents.length
  if total = 0 then
    ((if hyp_sents.length = 0 then (0 : ℚ) else 1), (if hyp_sents.length = 0 then 0 else 1), total)
  else
    ((serErrors ref_sents hyp_sents : ℚ) / (total : ℚ), serErrors ref_sents hyp_sents, total)

/-- The method string of the default sentence-splitting mode. -/
def methSimple : String := "simple"

/-- The method string of the newline sentence-splitting mode. -/
def methNewline : String := "newline"

/-- Reference recursive definition of the Levenshtein distance with unit
costs. -/
def lev {α : Type} [DecidableEq α] : List α → List α → ℕ
  | [], ys => ys.length
  | xs, [] => xs.length
  | x :: xs, y :: ys =>
    min (min (lev xs (y :: ys) + 1) (lev (x :: xs) ys + 1)) (lev xs ys + levCost x y)
termination_by xs ys => xs.length + ys.length

/-- `Edits xs ys k`: there is a script of `k` single-element operations
(insertions, deletions, substitutions of unequal elements; matching elements
cost nothing) transforming `xs` into `ys`. -/
inductive Edits {α : Type} : List α → List α → ℕ → Prop
  | nil : Edits [] [] 0
  | keep {x : α} {xs ys : List α} {n : ℕ} : Edits xs ys n → Edits (x :: xs) (x :: ys) n
  | sub {x y : α} {xs ys : List α} {n : ℕ} : Edits xs ys n → Edits (x :: xs) (y :: ys) (n + 1)
  | del {x : α} {xs ys : List α} {n : ℕ} : Edits xs ys n → Edits (x :: xs) ys (n + 1)
  | ins {y : α} {xs ys : List α} {n : ℕ} : Edits xs ys n → Edits xs (y :: ys) (n + 1)

/-- Modelled from the spec: split on any maximal run of one or more
sentence-terminator characters among `. ! ?` (the simple sentence-splitting
mode, stated independently of the code's merging recursion). -/
def termRunsSplit (l : List Char) : List (List Char) :=
  if (l.dropWhile (fun c => !(isTerm c))).isEmpty then [l]
  else
    (l.takeWhile (fun c => !(isTerm c))) ::
      termRunsSplit (((l.dropWhile (fun c => !(isTerm c))).tail).dropWhile isTerm)
termination_by l.length
decreasing_by
  have h1 : (l.dropWhile (fun c => !(isTerm c))).length ≤ l.length :=
    (List.dropWhile_sublist _).length_le
  have h2 : ((l.dropWhile (fun c => !(isTerm c))).tail).length <
      (l.dropWhile (fun c => !(isTerm c))).length := by
    rcases hd : l.dropWhile (fun c => !(isTerm c)) with _ | ⟨a, t⟩
    · simp [hd] at *
    · simp
  have h3 : (((l.dropWhile (fun c => !(isTerm c))).tail).dropWhile isTerm).length ≤
      ((l.dropWhile (fun c => !(isTerm c))).tail).length :=
    (List.dropWhile_sublist _).length_le
  omega

/-! ### The reference Levenshtein distance: basic equations -/

theorem lev_nil_left {α : Type} [DecidableEq α] (ys : List α) : lev [] ys = ys.length := by
  cases ys <;> simp [lev]

theorem lev_nil_right {α : Type} [DecidableEq α] (xs : List α) : lev xs [] = xs.length := by
  cases xs <;> simp [lev]

theorem lev_cons_cons {α : Type} [DecidableEq α] (x y : α) (xs ys : List α) :
    lev (x :: xs) (y :: ys) =
      min (min (lev xs (y :: ys) + 1) (lev (x :: xs) ys + 1)) (lev xs ys + levCost x y) := by
  simp [lev]

theorem levCost_le_one {α : Type} [DecidableEq α] (a b : α) : levCost a b ≤ 1 := by
  unfold levCost
  split <;> omega

theorem levCost_comm {α : Type} [DecidableEq α] (a b : α) : levCost a b = levCost b a := by
  unfold levCost
  by_cases h : a = b
  · subst h; simp
  · rw [if_neg h, if_neg (fun e => h e.symm)]

theorem levCost_self {α : Type} [DecidableEq α] (a : α) : levCost a a = 0 := by
  simp [levCost]

/-- Peeling the last element of each operand: the mirror image of the
defining recursion of `lev` (strong induction on the summed length). -/
theorem lev_snoc_aux {α : Type} [DecidableEq α] (x y : α) :
    ∀ (n : ℕ) (a b : List α), a.length + b.length ≤ n →
      lev (a ++ [x]) (b ++ [y]) =
        min (min (lev a (b ++ [y]) + 1) (lev (a ++ [x]) b + 1)) (lev a b + levCost x y) := by
  intro n
  induction n with
  | zero =>
    intro a b h
    have ha : a = [] := List.length_eq_zero.mp (by omega)
    have hb : b = [] := List.length_eq_zero.mp (by omega)
    subst ha; subst hb
    simp only [List.nil_append]
    rw [lev_cons_cons]
  | succ n ih =>
    intro a b hlen
    rcases a with _ | ⟨z, a'⟩
    · rcases b with _ | ⟨w, b'⟩
      · simp only [List.nil_append]
        rw [lev_cons_cons]
      · have ih1 := ih [] b' (by simp only [List.length_nil, List.length_cons] at hlen ⊢; omega)
        simp only [List.nil_append, List.cons_append, lev_cons_cons, lev_nil_left,
          List.length_append, List.length_cons, List.length_nil] at ih1 ⊢
        rw [ih1]
        omega
    · rcases b with _ | ⟨w, b'⟩
      · have ih1 := ih a' [] (by simp only [List.length_nil, List.length_cons] at hlen ⊢; omega)
        simp only [List.nil_append, List.cons_append, lev_cons_cons, lev_nil_right,
          List.length_append, List.length_cons, List.length_nil] at ih1 ⊢
        rw [ih1]
        omega
      · have ih1 := ih a' (w :: b') (by simp only [List.length_cons] at hlen ⊢; omega)
        have ih2 := ih (z :: a') b' (by simp only [List.length_cons] at hlen ⊢; omega)
        have ih3 := ih a' b' (by simp only [List.length_cons] at hlen ⊢; omega)
        simp only [List.cons_append, lev_cons_cons] at ih1 ih2 ih3 ⊢
        rw [ih1, ih2, ih3]
        simp only [← min_add_add_right]
        apply le_antisymm <;>
          · simp only [le_min_iff, min_le_iff]
            omega

/-- Peeling the last element of each operand. -/
theorem lev_snoc {α : Type} [DecidableEq α] (x y : α) (a b : List α) :
    lev (a ++ [x]) (b ++ [y]) =
      min (min (lev a (b ++ [y]) + 1) (lev (a ++ [x]) b + 1)) (lev a b + levCost x y) :=
  lev_snoc_aux x y (a.length + b.length) a b le_rfl

/-- `lev` is invariant under reversing both operands. -/
theorem lev_reverse {α : Type} [DecidableEq α] (a b : List α) :
    lev a.reverse b.reverse = lev a b := by
  have main : ∀ (n : ℕ) (a b : List α), a.length + b.length ≤ n →
      lev a.reverse b.reverse = lev a b := by
    intro n
    induction n with
    | zero =>
      intro a b h
      have ha : a = [] := List.length_eq_zero.mp (by omega)
      have hb : b = [] := List.length_eq_zero.mp (by omega)
      subst ha; subst hb; rfl
    | succ n ih =>
      intro a b hlen
      rcases a with _ | ⟨z, a'⟩
      · simp [lev_nil_left]
      · rcases b with _ | ⟨w, b'⟩
        · simp [lev_nil_right]
        · have ih1 := ih a' (w :: b') (by simp only [List.length_cons] at hlen ⊢; omega)
          have ih2 := ih (z :: a') b' (by simp only [List.length_cons] at hlen ⊢; omega)
          have ih3 := ih a' b' (by simp only [List.length_cons] at hlen ⊢; omega)
          rw [List.reverse_cons, List.reverse_cons, lev_snoc, ← List.reverse_cons w b',
            ← List.reverse_cons z a', ih1, ih2, ih3, lev_cons_cons]
  exact main (a.length + b.length) a b le_rfl

/-- `lev` is symmetric. -/
theorem lev_comm {α : Type} [DecidableEq α] (a b : List α) : lev a b = lev b a := by
  have main : ∀ (n : ℕ) (a b : List α), a.length + b.length ≤ n → lev a b = lev b a := by
    intro n
    induction n with
    | zero =>
      intro a b h
      have ha : a = [] := List.length_eq_zero.mp (by omega)
      have hb : b = [] := List.length_eq_zero.mp (by omega)
      subst ha; subst hb; rfl
    | succ n ih =>
      intro a b hlen
      rcases a with _ | ⟨z, a'⟩
      · simp [lev_nil_left, lev_nil_right]
      · rcases b with _ | ⟨w, b'⟩
        · simp [lev_nil_left, lev_nil_right]
        · have ih1 := ih a' (w :: b') (by simp only [List.length_cons] at hlen ⊢; omega)
          have ih2 := ih (z :: a') b' (by simp only [List.length_cons] at hlen ⊢; omega)
          have ih3 := ih a' b' (by simp only [List.length_cons] at hlen ⊢; omega)
          rw [lev_cons_cons, lev_cons_cons, ih1, ih2, ih3, levCost_comm]
          omega
  exact main (a.length + b.length) a b le_rfl

/-- The distance of a list to itself is zero. -/
theorem lev_self {α : Type} [DecidableEq α] : ∀ (a : List α), lev a a = 0
  | [] => by simp [lev_nil_left]
  | x :: xs => by
    have ih := lev_self xs
    rw [lev_cons_cons, levCost_self]
    omega

/-! ### Correctness of the two-row dynamic program -/

/-- The intended contents of a row of the dynamic program: entry `i` holds the
distance between the reversed length-`i` prefix of `s1` (accumulated in `ra`)
and the reversed prefix `r2` of `s2` consumed so far. -/
def rowSpec {α : Type} [DecidableEq α] : List α → List α → List α → List ℕ
  | ra, [], r2 => [lev ra r2]
  | ra, a :: s1, r2 => lev ra r2 :: rowSpec (a :: ra) s1 r2

theorem rowSpec_shape {α : Type} [DecidableEq α] (ra s1 r2 : List α) :
    rowSpec ra s1 r2 = lev ra r2 :: (rowSpec ra s1 r2).tail := by
  cases s1 <;> simp [rowSpec]

/-- The inner loop advances a correct row by one character of `s2`. -/
theorem rowAux_spec {α : Type} [DecidableEq α] (sj : α) :
    ∀ (s1 ra r2 : List α),
      rowAux sj s1 (rowSpec ra s1 r2) (lev ra (sj :: r2)) = (rowSpec ra s1 (sj :: r2)).tail := by
  intro s1
  induction s1 with
  | nil => intro ra r2; simp [rowAux, rowSpec]
  | cons a s1' ih =>
    intro ra r2
    simp only [rowSpec, List.tail_cons]
    rw [rowSpec_shape (a :: ra) s1' r2]
    simp only [rowAux]
    have hcur :
        min (min (lev (a :: ra) r2 + 1) (lev ra (sj :: r2) + 1)) (lev ra r2 + levCost a sj) =
          lev (a :: ra) (sj :: r2) := by
      rw [lev_cons_cons]
      omega
    rw [hcur, ← rowSpec_shape (a :: ra) s1' r2, ih (a :: ra) r2,
      ← rowSpec_shape (a :: ra) s1' (sj :: r2)]

/-- The outer loop turns a correct row for `r2` into a correct row for all of
`s2` consumed onto `r2`. -/
theorem levLoop_spec {α : Type} [DecidableEq α] (s1 : List α) :
    ∀ (s2 r2 : List α),
      levLoop s1 s2 (rowSpec [] s1 r2) (r2.length + 1) = rowSpec [] s1 (s2.reverseAux r2) := by
  intro s2
  induction s2 with
  | nil => intro r2; simp [levLoop, List.reverseAux]
  | cons sj rest ih =>
    intro r2
    simp only [levLoop, List.reverseAux]
    rw [← ih (sj :: r2)]
    congr 1
    have hl : lev ([] : List α) (sj :: r2) = r2.length + 1 := by
      simp [lev_nil_left]
    rw [rowSpec_shape [] s1 (sj :: r2), ← hl, rowAux_spec sj s1 [] r2]

/-- Against an empty consumed suffix the row is an arithmetic progression,
matching `list(range(n + 1))`. -/
theorem rowSpec_nil_r2 {α : Type} [DecidableEq α] :
    ∀ (s1 ra : List α), rowSpec ra s1 [] = List.range' ra.length (s1.length + 1) := by
  intro s1
  induction s1 with
  | nil => intro ra; simp [rowSpec, List.range', lev_nil_right]
  | cons a s1' ih =>
    intro ra
    simp [rowSpec, List.range', lev_nil_right, ih (a :: ra)]

/-- The final entry of a row holds the distance for all of `s1`. -/
theorem rowSpec_getD {α : Type} [DecidableEq α] :
    ∀ (s1 ra r2 : List α),
      (rowSpec ra s1 r2).getD s1.length 0 = lev (s1.reverseAux ra) r2 := by
  intro s1
  induction s1 with
  | nil => intro ra r2; simp [rowSpec, List.reverseAux]
  | cons a s1' ih =>
    intro ra r2
    simp only [rowSpec, List.reverseAux, List.length_cons, List.getD_cons_succ]
    exact ih (a :: ra) r2

/-- The row loop computes the reference distance. -/
theorem levCore_eq_lev {α : Type} [DecidableEq α] (s1 s2 : List α) :
    levCore s1 s2 = lev s1 s2 := by
  unfold levCore
  have h1 : List.range (s1.length + 1) = rowSpec ([] : List α) s1 [] := by
    rw [rowSpec_nil_r2 s1 [], List.range_eq_range']
    rfl
  have h2 := levLoop_spec s1 s2 []
  simp only [List.length_nil, Nat.zero_add] at h2
  rw [h1, h2, rowSpec_getD]
  have h3 : s1.reverseAux ([] : List α) = s1.reverse := by simp [List.reverseAux_eq]
  have h4 : s2.reverseAux ([] : List α) = s2.reverse := by simp [List.reverseAux_eq]
  rw [h3, h4, lev_reverse]

/-- `_levenshtein_distance` computes the reference distance. -/
theorem levenshtein_distance_eq_lev {α : Type} [DecidableEq α] (s1 s2 : List α) :
    levenshtein_distance s1 s2 = lev s1 s2 := by
  unfold levenshtein_distance
  rcases s1 with _ | ⟨x, xs⟩
  · simp [lev_nil_left]
  · rcases s2 with _ | ⟨y, ys⟩
    · simp [lev_nil_right]
    · rw [if_neg (by simp), if_neg (by simp)]
      split_ifs with h
      · rw [levCore_eq_lev, lev_comm]
      · rw [levCore_eq_lev]

/-! ### The distance is the exact minimum number of edit operations -/

/-- There is an edit script whose cost is exactly `lev`. -/
theorem edits_lev {α : Type} [DecidableEq α] (a b : List α) : Edits a b (lev a b) := by
  have main : ∀ (n : ℕ) (a b : List α), a.length + b.length ≤ n → Edits a b (lev a b) := by
    intro n
    induction n with
    | zero =>
      intro a b h
      have ha : a = [] := List.length_eq_zero.mp (by omega)
      have hb : b = [] := List.length_eq_zero.mp (by omega)
      subst ha; subst hb
      simpa [lev_nil_left] using Edits.nil
    | succ n ih =>
      intro a b hlen
      rcases a with _ | ⟨x, xs⟩
      · rcases b with _ | ⟨y, ys⟩
        · simpa [lev_nil_left] using Edits.nil
        · have ihb := ih [] ys (by simp only [List.length_nil, List.length_cons] at hlen ⊢; omega)
          have h : lev ([] : List α) (y :: ys) = lev ([] : List α) ys + 1 := by
            simp [lev_nil_left]
          rw [h]
          exact Edits.ins ihb
      · rcases b with _ | ⟨y, ys⟩
        · have iha := ih xs [] (by simp only [List.length_nil, List.length_cons] at hlen ⊢; omega)
          have h : lev (x :: xs) ([] : List α) = lev xs ([] : List α) + 1 := by
            simp [lev_nil_right]
          rw [h]
          exact Edits.del iha
        · have ih1 := ih xs (y :: ys) (by simp only [List.length_cons] at hlen ⊢; omega)
          have ih2 := ih (x :: xs) ys (by simp only [List.length_cons] at hlen ⊢; omega)
          have ih3 := ih xs ys (by simp only [List.length_cons] at hlen ⊢; omega)
          rw [lev_cons_cons]
          rcases min_choice (min (lev xs (y :: ys) + 1) (lev (x :: xs) ys + 1))
              (lev xs ys + levCost x y) with h | h
          · rw [h]
            rcases min_choice (lev xs (y :: ys) + 1) (lev (x :: xs) ys + 1) with h2 | h2
            · rw [h2]; exact Edits.del ih1
            · rw [h2]; exact Edits.ins ih2
          · rw [h]
            by_cases hxy : x = y
            · subst hxy
              rw [levCost_self]
              exact Edits.keep ih3
            · rw [show levCost x y = 1 from if_neg hxy]
              exact Edits.sub ih3
  exact main (a.length + b.length) a b le_rfl

/-- Dropping the head of the first operand costs at most one more edit. -/
theorem lev_cons_left_le {α : Type} [DecidableEq α] (x : α) (xs ys : List α) :
    lev (x :: xs) ys ≤ lev xs ys + 1 := by
  rcases ys with _ | ⟨y, ys'⟩
  · simp [lev_nil_right]
  · rw [lev_cons_cons]
    omega

/-- Dropping the head of the second operand costs at most one more edit. -/
theorem lev_cons_right_le {α : Type} [DecidableEq α] (y : α) (xs ys : List α) :
    lev xs (y :: ys) ≤ lev xs ys + 1 := by
  rcases xs with _ | ⟨x, xs'⟩
  · simp [lev_nil_left]
  · rw [lev_cons_cons]
    omega

/-- No edit script beats `lev`. -/
theorem lev_le_of_edits {α : Type} [DecidableEq α] {a b : List α} {k : ℕ}
    (h : Edits a b k) : lev a b ≤ k := by
  induction h with
  | nil => simp [lev_nil_left]
  | keep h ih =>
    rw [lev_cons_cons, levCost_self]
    exact le_trans (min_le_right _ _) (by omega)
  | sub h ih =>
    rw [lev_cons_cons]
    exact le_trans (min_le_right _ _) (add_le_add ih (levCost_le_one _ _))
  | del h ih =>
    exact le_trans (lev_cons_left_le _ _ _) (by omega)
  | ins h ih =>
    exact le_trans (lev_cons_right_le _ _ _) (by omega)

/-- Upper bound: never more edits than the longer length. -/
theorem lev_le_max {α : Type} [DecidableEq α] (a b : List α) :
    lev a b ≤ max a.length b.length := by
  have main : ∀ (n : ℕ) (a b : List α), a.length + b.length ≤ n →
      lev a b ≤ max a.length b.length := by
    intro n
    induction n with
    | zero =>
      intro a b h
      have ha : a = [] := List.length_eq_zero.mp (by omega)
      have hb : b = [] := List.length_eq_zero.mp (by omega)
      subst ha; subst hb
      simp [lev_nil_left]
    | succ n ih =>
      intro a b hlen
      rcases a with _ | ⟨x, xs⟩
      · simp [lev_nil_left]
      · rcases b with _ | ⟨y, ys⟩
        · simp [lev_nil_right]
        · have ih3 := ih xs ys (by simp only [List.length_cons] at hlen ⊢; omega)
          have hc := levCost_le_one x y
          rw [lev_cons_cons]
          simp only [List.length_cons]
          omega
  exact main (a.length + b.length) a b le_rfl

/-- Lower bound: each length is reachable from the other within `lev` edits. -/
theorem lev_len_bounds {α : Type} [DecidableEq α] (a b : List α) :
    a.length ≤ b.length + lev a b ∧ b.length ≤ a.length + lev a b := by
  have main : ∀ (n : ℕ) (a b : List α), a.length + b.length ≤ n →
      a.length ≤ b.length + lev a b ∧ b.length ≤ a.length + lev a b := by
    intro n
    induction n with
    | zero =>
      intro a b h
      have ha : a = [] := List.length_eq_zero.mp (by omega)
      have hb : b = [] := List.length_eq_zero.mp (by omega)
      subst ha; subst hb
      simp [lev_nil_left]
    | succ n ih =>
      intro a b hlen
      rcases a with _ | ⟨x, xs⟩
      · simp [lev_nil_left]
      · rcases b with _ | ⟨y, ys⟩
        · simp [lev_nil_right]
        · have ih1 := ih xs (y :: ys) (by simp only [List.length_cons] at hlen ⊢; omega)
          have ih2 := ih (x :: xs) ys (by simp only [List.length_cons] at hlen ⊢; omega)
          have ih3 := ih xs ys (by simp only [List.length_cons] at hlen ⊢; omega)
          rw [lev_cons_cons]
          simp only [List.length_cons] at ih1 ih2 ih3 ⊢
          omega
  exact main (a.length + b.length) a b le_rfl

/-! ### The ser error-counting loop -/

/-- Shifting a predicate across `List.range (n + 1)`. -/
theorem countP_range_shift (p q : ℕ → Bool) (n : ℕ) (hpq : ∀ i, p (i + 1) = q i) :
    List.countP p (List.range (n + 1)) = (if p 0 then 1 else 0) + List.countP q (List.range n) := by
  rw [List.range_succ_eq_map, List.countP_cons, List.countP_map]
  have hc : List.countP (p ∘ Nat.succ) (List.range n) = List.countP q (List.range n) :=
    List.countP_congr (fun a _ => by simp only [Function.comp_apply, Nat.succ_eq_add_one, hpq a])
  rw [hc]
  omega

/-- The loop counts the reference positions where the hypothesis is missing or
differs. -/
theorem serErrors_countP :
    ∀ (r h : List (List Char)),
      serErrors r h =
        List.countP (fun i => decide (h[i]? = none ∨ ¬ h[i]? = r[i]?)) (List.range r.length) := by
  intro r
  induction r with
  | nil => intro h; simp [serErrors]
  | cons r0 rs ih =>
    intro h
    rcases h with _ | ⟨h0, hs⟩
    · rw [List.length_cons,
        countP_range_shift _ (fun i => decide (([] : List (List Char))[i]? = none ∨
          ¬ ([] : List (List Char))[i]? = rs[i]?)) rs.length (fun i => by simp)]
      simp only [serErrors, ← ih []]
      simp
    · rw [List.length_cons,
        countP_range_shift _ (fun i => decide (hs[i]? = none ∨ ¬ hs[i]? = rs[i]?)) rs.length
          (fun i => by simp)]
      simp only [serErrors, ← ih hs]
      by_cases hh : h0 = r0
      · subst hh
        simp
      · simp [hh]

/-- Hypothesis sentences beyond the reference count never matter. -/
theorem serErrors_take :
    ∀ (r h : List (List Char)), serErrors r h = serErrors r (h.take r.length) := by
  intro r
  induction r with
  | nil => intro h; simp [serErrors]
  | cons r0 rs ih =>
    intro h
    rcases h with _ | ⟨h0, hs⟩
    · simp [serErrors]
    · simp only [List.length_cons, List.take_succ_cons, serErrors]
      rw [ih hs]

/-- Identical sentence lists produce no errors. -/
theorem serErrors_self : ∀ (r : List (List Char)), serErrors r r = 0 := by
  intro r
  induction r with
  | nil => simp [serErrors]
  | cons r0 rs ih => simp [serErrors, ih]

/-- The loop never counts more errors than reference sentences. -/
theorem serErrors_le_length : ∀ (r h : List (List Char)), serErrors r h ≤ r.length := by
  intro r
  induction r with
  | nil => intro h; simp [serErrors]
  | cons r0 rs ih =>
    intro h
    rcases h with _ | ⟨h0, hs⟩
    · have := ih ([] : List (List Char))
      simp only [serErrors, List.length_cons]
      omega
    · have := ih hs
      simp only [serErrors, List.length_cons]
      split <;> omega

/-- The empty method string, an unrecognized sentence-splitting mode. -/
def methEmpty : String := ""

/-! ### Claims -/

/-- Claim C2: for every pair of sequences compared by exact equality, the
distance function returns exactly the minimum number of single-element
insertions, deletions and substitutions transforming one into the other, and
the distance to or from an empty sequence is the length of the other
sequence. -/
theorem C2_distance_exact_minimum {α : Type} [DecidableEq α] (seq1 seq2 : List α) :
    IsLeast {k : ℕ | Edits seq1 seq2 k} (levenshtein_distance seq1 seq2) ∧
      levenshtein_distance ([] : List α) seq2 = seq2.length ∧
      levenshtein_distance seq1 ([] : List α) = seq1.length := by
  refine ⟨⟨?_, ?_⟩, ?_, ?_⟩
  · rw [levenshtein_distance_eq_lev]
    exact edits_lev seq1 seq2
  · intro k hk
    rw [levenshtein_distance_eq_lev]
    exact lev_le_of_edits hk
  · simp [levenshtein_distance]
  · unfold levenshtein_distance
    split_ifs with h1 <;> simp_all

/-- Claim C6: the distance between sequences of lengths `n` and `m` lies
between `|n - m|` and `max n m`. -/
theorem C6_triangle_bound {α : Type} [DecidableEq α] (seq1 seq2 : List α) :
    ((seq1.length : ℤ) - (seq2.length : ℤ)).natAbs ≤ levenshtein_distance seq1 seq2 ∧
      levenshtein_distance seq1 seq2 ≤ max seq1.length seq2.length := by
  rw [levenshtein_distance_eq_lev]
  have h1 := lev_len_bounds seq1 seq2
  have h2 := lev_le_max seq1 seq2
  omega

/-- Claim C4: with at least one reference sentence, `ser` counts exactly the
reference positions whose hypothesis sentence is missing or different, the
denominator is the reference sentence count, and hypothesis sentences beyond
that count never change the error count. -/
theorem C4_ser_error_positions (ref_text hyp_text : List Char)
    (lowercase strip_punct normalize_whitespace : Bool) (sentence_split : String)
    (htotal :
      0 < (serSents ref_text lowercase strip_punct normalize_whitespace sentence_split).length) :
    (ser ref_text hyp_text lowercase strip_punct normalize_whitespace sentence_split).2.1 =
        List.countP
          (fun i => decide
            ((serSents hyp_text lowercase strip_punct normalize_whitespace sentence_split)[i]? =
                none ∨
              ¬ (serSents hyp_text lowercase strip_punct normalize_whitespace sentence_split)[i]? =
                (serSents ref_text lowercase strip_punct normalize_whitespace sentence_split)[i]?))
          (List.range
            (serSents ref_text lowercase strip_punct normalize_whitespace sentence_split).length) ∧
      (ser ref_text hyp_text lowercase strip_punct normalize_whitespace sentence_split).2.2 =
        (serSents ref_text lowercase strip_punct normalize_whitespace sentence_split).length ∧
      serErrors (serSents ref_text lowercase strip_punct normalize_whitespace sentence_split)
          (serSents hyp_text lowercase strip_punct normalize_whitespace sentence_split) =
        serErrors (serSents ref_text lowercase strip_punct normalize_whitespace sentence_split)
          ((serSents hyp_text lowercase strip_punct normalize_whitespace sentence_split).take
            (serSents ref_text lowercase strip_punct normalize_whitespace sentence_split).length) := by
  unfold ser
  rw [if_neg (by omega)]
  refine ⟨serErrors_countP _ _, rfl, serErrors_take _ _⟩

/-- Claim C5: with zero reference sentences, `ser` returns `(0, 0, 0)` when the
hypothesis also has zero sentences and `(1, 1, 0)` otherwise. -/
theorem C5_ser_zero_reference (ref_text hyp_text : List Char)
    (lowercase strip_punct normalize_whitespace : Bool) (sentence_split : String)
    (h : serSents ref_text lowercase strip_punct normalize_whitespace sentence_split = []) :
    ser ref_text hyp_text lowercase strip_punct normalize_whitespace sentence_split =
      if serSents hyp_text lowercase strip_punct normalize_whitespace sentence_split = []
      then ((0 : ℚ), 0, 0) else ((1 : ℚ), 1, 0) := by
  unfold ser
  rw [h]
  by_cases hh : serSents hyp_text lowercase strip_punct normalize_whitespace sentence_split = []
  · simp [hh]
  · simp [hh, List.length_eq_zero]

/-- Claim C3: when the normalized reference has zero word tokens, `wer` returns
ratio `0` for an empty hypothesis token list and `1` otherwise, with the
hypothesis token count as the edits component and `0` as the reference length;
in particular `wer "" "" = (0, 0, 0)`. -/
theorem C3_wer_empty_reference (ref_text hyp_text : List Char)
    (lowercase strip_punct normalize_whitespace : Bool)
    (h : tokenize_words (normalize_text ref_text lowercase strip_punct normalize_whitespace) = []) :
    wer ref_text hyp_text lowercase strip_punct normalize_whitespace =
        ((if tokenize_words (normalize_text hyp_text lowercase strip_punct normalize_whitespace) =
            [] then (0 : ℚ) else 1),
          (tokenize_words
            (normalize_text hyp_text lowercase strip_punct normalize_whitespace)).length, 0) ∧
      wer [] [] lowercase strip_punct normalize_whitespace = ((0 : ℚ), 0, 0) := by
  constructor
  · unfold wer
    rw [h]
    simp only [List.length_nil, levenshtein_distance, if_pos rfl]
    simp [List.length_eq_zero]
  · have hnorm : normalize_text [] lowercase strip_punct normalize_whitespace = [] := by
      simp [normalize_text, collapseWs, pstrip]
    unfold wer
    rw [hnorm]
    simp [tokenize_words, levenshtein_distance]

/-- Claim C10: every method string other than `"newline"` (including the empty
string) makes `split_sentences` behave exactly like `"simple"`. -/
theorem C10_split_sentences_default (text : List Char) (method : String)
    (h : ¬ method = "newline") :
    split_sentences text method = split_sentences text methSimple := by
  have h2 : ¬ (methSimple = ("newline" : String)) := by decide
  unfold split_sentences
  by_cases ht : text.isEmpty
  · simp [ht]
  · simp [ht, h, h2]

/-- The numerator/denominator shape shared by `wer` and `cer`: the ratio is
never negative. -/
theorem rate_fst_nonneg {α : Type} [DecidableEq α] (t h : List α) :
    0 ≤ (if t.length = 0 then
          ((if h.length = 0 then (0 : ℚ) else 1), levenshtein_distance t h, t.length)
        else ((levenshtein_distance t h : ℚ) / (t.length : ℚ), levenshtein_distance t h,
          t.length)).1 := by
  split_ifs with h1 h2
  · norm_num
  · norm_num
  · exact div_nonneg (Nat.cast_nonneg _) (Nat.cast_nonneg _)

/-- When the hypothesis sequence is no longer than the reference sequence the
ratio is at most one. -/
theorem rate_fst_le_one {α : Type} [DecidableEq α] (t h : List α) (hle : h.length ≤ t.length) :
    (if t.length = 0 then
        ((if h.length = 0 then (0 : ℚ) else 1), levenshtein_distance t h, t.length)
      else ((levenshtein_distance t h : ℚ) / (t.length : ℚ), levenshtein_distance t h,
        t.length)).1 ≤ 1 := by
  split_ifs with h1 h2
  · norm_num
  · omega
  · have he : levenshtein_distance t h ≤ t.length := by
      have hm := lev_le_max t h
      rw [← levenshtein_distance_eq_lev] at hm
      omega
    have hpos : 0 < (t.length : ℚ) := by exact_mod_cast Nat.pos_of_ne_zero h1
    rw [div_le_one hpos]
    exact_mod_cast he

/-- Claim C1 (amended): all three ratios are nonnegative; the `ser` ratio
always lies in `[0, 1]`; the `wer` and `cer` ratios lie in `[0, 1]` whenever
the hypothesis has no more tokens (respectively characters) than the
reference, but may exceed `1` when the hypothesis is longer. -/
theorem C1_ratio_bounds (ref_text hyp_text : List Char)
    (lowercase strip_punct normalize_whitespace include_spaces : Bool) (sentence_split : String) :
    0 ≤ (wer ref_text hyp_text lowercase strip_punct normalize_whitespace).1 ∧
      ((tokenize_words (normalize_text hyp_text lowercase strip_punct normalize_whitespace)).length ≤
          (tokenize_words (normalize_text ref_text lowercase strip_punct normalize_whitespace)).length →
        (wer ref_text hyp_text lowercase strip_punct normalize_whitespace).1 ≤ 1) ∧
      0 ≤ (cer ref_text hyp_text lowercase strip_punct normalize_whitespace include_spaces).1 ∧
      ((if include_spaces then normalize_text hyp_text lowercase strip_punct normalize_whitespace
          else (normalize_text hyp_text lowercase strip_punct normalize_whitespace).filter
            (fun c => !c.isWhitespace)).length ≤
        (if include_spaces then normalize_text ref_text lowercase strip_punct normalize_whitespace
          else (normalize_text ref_text lowercase strip_punct normalize_whitespace).filter
            (fun c => !c.isWhitespace)).length →
        (cer ref_text hyp_text lowercase strip_punct normalize_whitespace include_spaces).1 ≤ 1) ∧
      0 ≤ (ser ref_text hyp_text lowercase strip_punct normalize_whitespace sentence_split).1 ∧
      (ser ref_text hyp_text lowercase strip_punct normalize_whitespace sentence_split).1 ≤ 1 := by
  refine ⟨?_, ?_, ?_, ?_, ?_, ?_⟩
  · simp only [wer]
    exact rate_fst_nonneg _ _
  · intro hle
    simp only [wer]
    exact rate_fst_le_one _ _ hle
  · simp only [cer]
    exact rate_fst_nonneg _ _
  · intro hle
    simp only [cer]
    exact rate_fst_le_one _ _ hle
  · by_cases h : (serSents ref_text lowercase strip_punct normalize_whitespace sentence_split).length = 0
    · simp only [ser, h, if_pos]
      split_ifs <;> norm_num
    · simp only [ser, if_neg h]
      exact div_nonneg (Nat.cast_nonneg _) (Nat.cast_nonneg _)
  · by_cases h : (serSents ref_text lowercase strip_punct normalize_whitespace sentence_split).length = 0
    · simp only [ser, h, if_pos]
      split_ifs <;> norm_num
    · simp only [ser, if_neg h]
      have he := serErrors_le_length
        (serSents ref_text lowercase strip_punct normalize_whitespace sentence_split)
        (serSents hyp_text lowercase strip_punct normalize_whitespace sentence_split)
      have hpos : 0 <
          ((serSents ref_text lowercase strip_punct normalize_whitespace sentence_split).length :
            ℚ) := by
        exact_mod_cast Nat.pos_of_ne_zero h
      rw [div_le_one hpos]
      exact_mod_cast he

/-- Claim C1 counterexample: with reference `"a"` and hypothesis `"b c"` the
`wer` ratio is `2`, outside `[0, 1]`. -/
theorem C1_counterexample : 1 < (wer ['a'] ['b', ' ', 'c'] true false true).1 := by
  have h1 : tokenize_words (normalize_text ['a'] true false true) = [['a']] := by decide
  have h2 : tokenize_words (normalize_text ['b', ' ', 'c'] true false true) = [['b'], ['c']] := by
    decide
  have h3 : levenshtein_distance [['a']] [['b'], ['c']] = 2 := by decide
  simp only [wer, h1, h2, h3]
  norm_num

/-- Claim C1 witness: at a concrete input the bounds hold. -/
theorem C1_witness :
    0 ≤ (wer ['a'] ['a'] true false true).1 ∧
      (wer ['a'] ['a'] true false true).1 ≤ 1 ∧
      0 ≤ (cer ['a'] ['a'] true false true false).1 ∧
      (cer ['a'] ['a'] true false true false).1 ≤ 1 ∧
      0 ≤ (ser ['a'] ['a'] true false true methSimple).1 ∧
      (ser ['a'] ['a'] true false true methSimple).1 ≤ 1 := by
  have h := C1_ratio_bounds ['a'] ['a'] true false true false methSimple
  exact ⟨h.1, h.2.1 (by decide), h.2.2.1, h.2.2.2.1 (by decide), h.2.2.2.2.1, h.2.2.2.2.2⟩

/-- The distance of a sequence to itself is zero, through the implementation. -/
theorem levenshtein_distance_self {α : Type} [DecidableEq α] (l : List α) :
    levenshtein_distance l l = 0 := by
  rw [levenshtein_distance_eq_lev]
  exact lev_self l

/-- Claim C8: comparing a text against itself yields ratio `0` and numerator
`0` for all three metrics, with `wer` reporting the word count of the
normalized text as denominator. -/
theorem C8_identity (T : List Char)
    (lowercase strip_punct normalize_whitespace include_spaces : Bool) (sentence_split : String) :
    wer T T lowercase strip_punct normalize_whitespace =
        ((0 : ℚ), 0,
          (tokenize_words (normalize_text T lowercase strip_punct normalize_whitespace)).length) ∧
      (cer T T lowercase strip_punct normalize_whitespace include_spaces).1 = 0 ∧
      (cer T T lowercase strip_punct normalize_whitespace include_spaces).2.1 = 0 ∧
      (ser T T lowercase strip_punct normalize_whitespace sentence_split).1 = 0 ∧
      (ser T T lowercase strip_punct normalize_whitespace sentence_split).2.1 = 0 := by
  refine ⟨?_, ?_, ?_, ?_, ?_⟩
  · by_cases h :
      (tokenize_words (normalize_text T lowercase strip_punct normalize_whitespace)).length = 0
    · simp [wer, h, levenshtein_distance_self]
    · simp [wer, h, levenshtein_distance_self]
  · by_cases h : (if include_spaces then normalize_text T lowercase strip_punct normalize_whitespace
        else (normalize_text T lowercase strip_punct normalize_whitespace).filter
          (fun c => !c.isWhitespace)).length = 0
    · simp [cer, h, levenshtein_distance_self]
    · simp [cer, h, levenshtein_distance_self]
  · by_cases h : (if include_spaces then normalize_text T lowercase strip_punct normalize_whitespace
        else (normalize_text T lowercase strip_punct normalize_whitespace).filter
          (fun c => !c.isWhitespace)).length = 0
    · simp [cer, h, levenshtein_distance_self]
    · simp [cer, h, levenshtein_distance_self]
  · by_cases h :
      (serSents T lowercase strip_punct normalize_whitespace sentence_split).length = 0
    · simp [ser, h]
    · simp [ser, h, serErrors_self]
  · by_cases h :
      (serSents T lowercase strip_punct normalize_whitespace sentence_split).length = 0
    · simp [ser, h]
    · simp [ser, h, serErrors_self]

/-- Claim C3 witness: the empty-reference convention at concrete inputs. -/
theorem C3_witness :
    tokenize_words (normalize_text [] true false true) = [] ∧
      (wer [] ['x'] true false true =
          ((if tokenize_words (normalize_text ['x'] true false true) = [] then (0 : ℚ) else 1),
            (tokenize_words (normalize_text ['x'] true false true)).length, 0) ∧
        wer [] [] true false true = ((0 : ℚ), 0, 0)) :=
  ⟨by decide, C3_wer_empty_reference [] ['x'] true false true (by decide)⟩

/-- Claim C5 witness: a reference with no sentences against a hypothesis with
one sentence. -/
theorem C5_witness :
    serSents [] true false true methSimple = [] ∧
      ser [] ['x'] true false true methSimple =
        (if serSents ['x'] true false true methSimple = [] then ((0 : ℚ), 0, 0)
          else ((1 : ℚ), 1, 0)) :=
  ⟨by decide, C5_ser_zero_reference [] ['x'] true false true methSimple (by decide)⟩

/-- Claim C10 witness: the empty method string behaves like `"simple"`. -/
theorem C10_witness :
    ¬ methEmpty = "newline" ∧
      split_sentences ['a'] methEmpty = split_sentences ['a'] methSimple :=
  ⟨by decide, C10_split_sentences_default ['a'] methEmpty (by decide)⟩

/-- Claim C4 witness: reference `"a. b."` against hypothesis `"a."`. -/
theorem C4_witness :
    0 < (serSents ['a', '.', ' ', 'b', '.'] true false true methSimple).length ∧
      ((ser ['a', '.', ' ', 'b', '.'] ['a', '.'] true false true methSimple).2.1 =
          List.countP
            (fun i => decide
              ((serSents ['a', '.'] true false true methSimple)[i]? = none ∨
                ¬ (serSents ['a', '.'] true false true methSimple)[i]? =
                  (serSents ['a', '.', ' ', 'b', '.'] true false true methSimple)[i]?))
            (List.range (serSents ['a', '.', ' ', 'b', '.'] true false true methSimple).length) ∧
        (ser ['a', '.', ' ', 'b', '.'] ['a', '.'] true false true methSimple).2.2 =
          (serSents ['a', '.', ' ', 'b', '.'] true false true methSimple).length ∧
        serErrors (serSents ['a', '.', ' ', 'b', '.'] true false true methSimple)
            (serSents ['a', '.'] true false true methSimple) =
          serErrors (serSents ['a', '.', ' ', 'b', '.'] true false true methSimple)
            ((serSents ['a', '.'] true false true methSimple).take
              (serSents ['a', '.', ' ', 'b', '.'] true false true methSimple).length)) :=
  ⟨by decide,
    C4_ser_error_positions ['a', '.', ' ', 'b', '.'] ['a', '.'] true false true methSimple
      (by decide)⟩

/-! ### Normalization idempotence -/

/-- `Char.ofNat` round-trips on valid scalar values below the surrogate
range. -/
theorem toNat_ofNat_valid {n : ℕ} (h : n < 55296) : (Char.ofNat n).toNat = n := by
  have hv : n.isValidChar := Or.inl h
  rw [Char.ofNat, dif_pos hv]
  rfl

/-- Lowercasing is idempotent character by character. -/
theorem toLower_toLower (c : Char) : c.toLower.toLower = c.toLower := by
  simp only [Char.toLower]
  by_cases h : c.toNat ≥ 65 ∧ c.toNat ≤ 90
  · rw [if_pos h]
    have h2 : (Char.ofNat (c.toNat + 32)).toNat = c.toNat + 32 := toNat_ofNat_valid (by omega)
    rw [if_neg (by rw [h2]; omega)]
  · rw [if_neg h, if_neg h]

/-- No two adjacent whitespace characters. -/
def noWsPair (a b : Char) : Prop :=
  ¬ (a.isWhitespace = true ∧ b.isWhitespace = true)

/-- Every character that `collapseWs` emits is a non-whitespace character of
its input or the collapsing space. -/
theorem collapseWs_mem :
    ∀ (l : List Char) (c : Char), c ∈ collapseWs l →
      (c ∈ l ∧ c.isWhitespace = false) ∨ c = ' ' := by
  intro l
  induction l using collapseWs.induct with
  | case1 => simp [collapseWs]
  | case2 d hd =>
    intro c hc
    simp only [collapseWs, if_pos hd, List.mem_singleton] at hc
    right; exact hc
  | case3 d hd =>
    intro c hc
    simp only [collapseWs, if_neg hd, List.mem_singleton] at hc
    left
    exact ⟨by simp [hc], by subst hc; simpa using hd⟩
  | case4 c d rest hc hd ih =>
    intro x hx
    simp only [collapseWs, if_pos hc, if_pos hd] at hx
    rcases ih x hx with ⟨hm, hw⟩ | hs
    · exact Or.inl ⟨List.mem_cons_of_mem c hm, hw⟩
    · exact Or.inr hs
  | case5 c d rest hc hd ih =>
    intro x hx
    simp only [collapseWs, if_pos hc, if_neg hd, List.mem_cons] at hx
    rcases hx with hx | hx
    · exact Or.inr hx
    · rcases ih x hx with ⟨hm, hw⟩ | hs
      · exact Or.inl ⟨List.mem_cons_of_mem c hm, hw⟩
      · exact Or.inr hs
  | case6 c d rest hc ih =>
    intro x hx
    simp only [collapseWs, if_neg hc, List.mem_cons] at hx
    rcases hx with hx | hx
    · subst hx
      exact Or.inl ⟨List.mem_cons_self _ _, by simpa using hc⟩
    · rcases ih x hx with ⟨hm, hw⟩ | hs
      · exact Or.inl ⟨List.mem_cons_of_mem c hm, hw⟩
      · exact Or.inr hs

/-- The head that `collapseWs` emits for a list starting with a
non-whitespace character. -/
theorem collapseWs_head_nonws (d : Char) (rest : List Char) (hd : ¬ d.isWhitespace = true) :
    (collapseWs (d :: rest)).head? = some d := by
  cases rest <;> simp [collapseWs, hd]

/-- `collapseWs` never leaves two adjacent whitespace characters. -/
theorem collapseWs_chain' : ∀ (l : List Char), List.Chain' noWsPair (collapseWs l) := by
  intro l
  induction l using collapseWs.induct with
  | case1 => simp [collapseWs]
  | case2 d hd => simp [collapseWs, hd]
  | case3 d hd => simp [collapseWs, hd]
  | case4 c d rest hc hd ih =>
    simpa only [collapseWs, if_pos hc, if_pos hd] using ih
  | case5 c d rest hc hd ih =>
    simp only [collapseWs, if_pos hc, if_neg hd]
    rw [List.chain'_cons']
    refine ⟨?_, ih⟩
    intro y hy
    rw [collapseWs_head_nonws d rest hd] at hy
    simp only [Option.mem_def, Option.some.injEq] at hy
    subst hy
    exact fun hcon => hd hcon.2
  | case6 c d rest hc ih =>
    simp only [collapseWs, if_neg hc]
    rw [List.chain'_cons']
    refine ⟨?_, ih⟩
    intro y _
    exact fun hcon => hc hcon.1

/-- Already-collapsed text is a fixed point of `collapseWs`. -/
theorem collapseWs_fix :
    ∀ (l : List Char), (∀ c ∈ l, c.isWhitespace = true → c = ' ') →
      List.Chain' noWsPair l → collapseWs l = l := by
  intro l
  induction l using collapseWs.induct with
  | case1 => intro _ _; rfl
  | case2 d hd =>
    intro hall _
    simp only [collapseWs, if_pos hd]
    rw [hall d (List.mem_singleton_self d) hd]
  | case3 d hd =>
    intro _ _
    simp only [collapseWs, if_neg hd]
  | case4 c d rest hc hd ih =>
    intro _ hch
    exfalso
    rw [List.chain'_cons'] at hch
    exact hch.1 d (by simp [collapseWs_head_nonws, List.head?]) ⟨hc, hd⟩
  | case5 c d rest hc hd ih =>
    intro hall hch
    simp only [collapseWs, if_pos hc, if_neg hd]
    rw [List.chain'_cons'] at hch
    rw [ih (fun x hx hw => hall x (List.mem_cons_of_mem c hx) hw) hch.2,
      hall c (List.mem_cons_self c _) hc]
  | case6 c d rest hc ih =>
    intro hall hch
    simp only [collapseWs, if_neg hc]
    rw [List.chain'_cons'] at hch
    rw [ih (fun x hx hw => hall x (List.mem_cons_of_mem c hx) hw) hch.2]

/-- Stripping only removes characters. -/
theorem mem_pstrip (l : List Char) (c : Char) (h : c ∈ pstrip l) : c ∈ l := by
  unfold pstrip at h
  rw [List.mem_reverse] at h
  have h2 := (List.dropWhile_sublist (l := (l.dropWhile Char.isWhitespace).reverse)
    Char.isWhitespace).subset h
  rw [List.mem_reverse] at h2
  exact (List.dropWhile_sublist Char.isWhitespace).subset h2

/-- `noWsPair` chains survive stripping. -/
theorem chain'_pstrip (l : List Char) (h : List.Chain' noWsPair l) :
    List.Chain' noWsPair (pstrip l) := by
  unfold pstrip
  have h1 : List.Chain' noWsPair (l.dropWhile Char.isWhitespace) :=
    h.suffix (List.dropWhile_suffix _)
  have hsymm : ∀ a b : Char, noWsPair a b → noWsPair b a := by
    intro a b hab hcon
    exact hab ⟨hcon.2, hcon.1⟩
  have h2 : List.Chain' noWsPair (l.dropWhile Char.isWhitespace).reverse := by
    rw [List.chain'_reverse]
    exact (h1.imp fun a b hab => hsymm a b hab)
  have h3 : List.Chain' noWsPair
      ((l.dropWhile Char.isWhitespace).reverse.dropWhile Char.isWhitespace) :=
    h2.suffix (List.dropWhile_suffix _)
  rw [List.chain'_reverse]
  exact (h3.imp fun a b hab => hsymm a b hab)

/-- Whatever `dropWhile isWhitespace` exposes as head is not whitespace. -/
theorem head?_dropWhile_ws :
    ∀ (l : List Char) (x : Char), (l.dropWhile Char.isWhitespace).head? = some x →
      x.isWhitespace = false := by
  intro l
  induction l with
  | nil => intro x hx; simp at hx
  | cons c cs ih =>
    intro x hx
    by_cases hc : c.isWhitespace
    · rw [List.dropWhile_cons_of_pos hc] at hx
      exact ih x hx
    · rw [List.dropWhile_cons_of_neg hc] at hx
      simp only [List.head?_cons, Option.some.injEq] at hx
      subst hx
      simpa using hc

/-- A list whose head is not whitespace is untouched by `dropWhile`. -/
theorem dropWhile_ws_eq_self (l : List Char)
    (h : ∀ x, l.head? = some x → x.isWhitespace = false) :
    l.dropWhile Char.isWhitespace = l := by
  cases l with
  | nil => rfl
  | cons c cs =>
    rw [List.dropWhile_cons_of_neg]
    simp [h c rfl]

/-- A nonempty suffix shares the last element. -/
theorem getLast?_of_suffix {α : Type} {l1 l2 : List α} (h : l1 <:+ l2) (hne : l1 ≠ []) :
    l1.getLast? = l2.getLast? := by
  obtain ⟨t, rfl⟩ := h
  rw [List.getLast?_append]
  rcases hx : l1.getLast? with _ | y
  · exact absurd (List.getLast?_eq_none_iff.mp hx) hne
  · rfl

/-- The head of a stripped list is not whitespace. -/
theorem pstrip_head_nonws (l : List Char) :
    ∀ x, (pstrip l).head? = some x → x.isWhitespace = false := by
  intro x hx
  unfold pstrip at hx
  rw [List.head?_reverse] at hx
  have hne : (l.dropWhile Char.isWhitespace).reverse.dropWhile Char.isWhitespace ≠ [] := by
    intro hcon
    rw [hcon] at hx
    simp at hx
  rw [getLast?_of_suffix (List.dropWhile_suffix _) hne, List.getLast?_reverse] at hx
  exact head?_dropWhile_ws l x hx

/-- The last element of a stripped list is not whitespace. -/
theorem pstrip_last_nonws (l : List Char) :
    ∀ x, (pstrip l).getLast? = some x → x.isWhitespace = false := by
  intro x hx
  unfold pstrip at hx
  rw [List.getLast?_reverse] at hx
  exact head?_dropWhile_ws (l.dropWhile Char.isWhitespace).reverse x hx

/-- A list with non-whitespace edges is a fixed point of `pstrip`. -/
theorem pstrip_eq_self (l : List Char)
    (hh : ∀ x, l.head? = some x → x.isWhitespace = false)
    (hl : ∀ x, l.getLast? = some x → x.isWhitespace = false) :
    pstrip l = l := by
  unfold pstrip
  rw [dropWhile_ws_eq_self l hh]
  rw [dropWhile_ws_eq_self l.reverse (by
    intro x hx
    rw [List.head?_reverse] at hx
    exact hl x hx)]
  exact List.reverse_reverse l

/-- Stripping is idempotent. -/
theorem pstrip_idem (l : List Char) : pstrip (pstrip l) = pstrip l :=
  pstrip_eq_self (pstrip l) (pstrip_head_nonws l) (pstrip_last_nonws l)

/-- The whitespace-normalization stage is idempotent. -/
theorem wsStage_fix (t : List Char) :
    pstrip (collapseWs (pstrip (collapseWs t))) = pstrip (collapseWs t) := by
  have h1 : collapseWs (pstrip (collapseWs t)) = pstrip (collapseWs t) := by
    apply collapseWs_fix
    · intro c hc hw
      rcases collapseWs_mem t c (mem_pstrip (collapseWs t) c hc) with ⟨_, hnw⟩ | hs
      · rw [hw] at hnw
        exact absurd hnw (by simp)
      · exact hs
    · exact chain'_pstrip _ (collapseWs_chain' t)
  rw [h1]
  exact pstrip_idem (collapseWs t)

/-- Everything in the whitespace stage output comes from its input or is a
space. -/
theorem mem_wsStage (t : List Char) (c : Char) (h : c ∈ pstrip (collapseWs t)) :
    c ∈ t ∨ c = ' ' := by
  rcases collapseWs_mem t c (mem_pstrip _ c h) with ⟨hm, _⟩ | hs
  · exact Or.inl hm
  · exact Or.inr hs

/-- A map whose function fixes every element is the identity. -/
theorem map_eq_self_of {α : Type} (l : List α) (f : α → α) (h : ∀ c ∈ l, f c = c) :
    l.map f = l := by
  induction l with
  | nil => rfl
  | cons a t ih =>
    simp only [List.map_cons, h a (List.mem_cons_self a t),
      ih (fun c hc => h c (List.mem_cons_of_mem a hc))]

/-- Characters produced by lowercasing are fixed by lowercasing. -/
theorem lower_fixed (T : List Char) (c : Char) (h : c ∈ T.map Char.toLower) :
    Char.toLower c = c := by
  obtain ⟨x, _, hfx⟩ := List.mem_map.mp h
  rw [← hfx]
  exact toLower_toLower x

/-- Claim C7: `normalize_text` is idempotent for every setting of the three
normalization flags. -/
theorem C7_normalize_idempotent (T : List Char)
    (lowercase strip_punct normalize_whitespace : Bool) :
    normalize_text (normalize_text T lowercase strip_punct normalize_whitespace)
        lowercase strip_punct normalize_whitespace =
      normalize_text T lowercase strip_punct normalize_whitespace := by
  cases lowercase <;> cases strip_punct <;> cases normalize_whitespace <;>
    simp only [normalize_text, Bool.false_eq_true, if_false, if_true]
  · exact wsStage_fix T
  · exact List.filter_eq_self.mpr (fun a ha => List.of_mem_filter ha)
  · have hY : (pstrip (collapseWs (List.filter keepChar T))).filter keepChar =
        pstrip (collapseWs (List.filter keepChar T)) := by
      refine List.filter_eq_self.mpr (fun a ha => ?_)
      rcases mem_wsStage _ a ha with hm | hs
      · exact List.of_mem_filter hm
      · subst hs; decide
    rw [hY]
    exact wsStage_fix _
  · exact map_eq_self_of _ _ (lower_fixed T)
  · have hY : (pstrip (collapseWs (T.map Char.toLower))).map Char.toLower =
        pstrip (collapseWs (T.map Char.toLower)) := by
      refine map_eq_self_of _ _ (fun c hc => ?_)
      rcases mem_wsStage _ c hc with hm | hs
      · exact lower_fixed T c hm
      · subst hs; decide
    rw [hY]
    exact wsStage_fix _
  · have h1 : (List.filter keepChar (T.map Char.toLower)).map Char.toLower =
        List.filter keepChar (T.map Char.toLower) :=
      map_eq_self_of _ _ (fun c hc => lower_fixed T c (List.mem_of_mem_filter hc))
    rw [h1]
    exact List.filter_eq_self.mpr (fun a ha => List.of_mem_filter ha)
  · have h1 : (pstrip (collapseWs (List.filter keepChar (T.map Char.toLower)))).map
        Char.toLower =
        pstrip (collapseWs (List.filter keepChar (T.map Char.toLower))) := by
      refine map_eq_self_of _ _ (fun c hc => ?_)
      rcases mem_wsStage _ c hc with hm | hs
      · exact lower_fixed T c (List.mem_of_mem_filter hm)
      · subst hs; decide
    have h2 : (pstrip (collapseWs (List.filter keepChar (T.map Char.toLower)))).filter
        keepChar =
        pstrip (collapseWs (List.filter keepChar (T.map Char.toLower))) := by
      refine List.filter_eq_self.mpr (fun a ha => ?_)
      rcases mem_wsStage _ a ha with hm | hs
      · exact List.of_mem_filter hm
      · subst hs; decide
    rw [h1, h2]
    exact wsStage_fix _

/-- `splitTerms` always produces at least one piece. -/
theorem splitTerms_ne_nil : ∀ (l : List Char), splitTerms l ≠ [] := by
  intro l
  induction l with
  | nil => simp [splitTerms]
  | cons c cs ih =>
    simp only [splitTerms]
    split_ifs with hc
    · rcases cs with _ | ⟨d, cs'⟩
      · simp
      · by_cases hd : isTerm d = true
        · simpa [hd] using ih
        · simp [hd]
    · rcases hsp : splitTerms cs with _ | ⟨p, ps⟩ <;> simp

/-- The code's merging recursion equals the spec's maximal-run splitter. -/
theorem splitTerms_eq_termRuns : ∀ (l : List Char), splitTerms l = termRunsSplit l := by
  intro l
  induction l with
  | nil =>
    rw [termRunsSplit]
    simp [splitTerms]
  | cons c cs ih =>
    by_cases hc : isTerm c = true
    · rcases cs with _ | ⟨d, cs'⟩
      · rw [termRunsSplit]
        simp only [List.dropWhile_cons, hc, Bool.not_true, Bool.false_eq_true, if_false,
          List.isEmpty_cons, List.takeWhile_cons, List.tail_cons]
        rw [termRunsSplit]
        simp [splitTerms, hc]
      · by_cases hd : isTerm d = true
        · have e1 : termRunsSplit (c :: d :: cs') =
              [] :: termRunsSplit (cs'.dropWhile isTerm) := by
            rw [termRunsSplit, if_neg (by simp [List.dropWhile_cons, hc])]
            simp [List.takeWhile_cons, List.dropWhile_cons, hc, hd]
          have e2 : termRunsSplit (d :: cs') =
              [] :: termRunsSplit (cs'.dropWhile isTerm) := by
            rw [termRunsSplit, if_neg (by simp [List.dropWhile_cons, hd])]
            simp [List.takeWhile_cons, List.dropWhile_cons, hd]
          rw [show splitTerms (c :: d :: cs') = splitTerms (d :: cs') from by
            simp [splitTerms, hc, hd], ih, e2, e1]
        · rw [show splitTerms (c :: d :: cs') = [] :: splitTerms (d :: cs') from by
            simp [splitTerms, hc, hd]]
          rw [ih]
          conv_rhs => rw [termRunsSplit]
          simp only [List.dropWhile_cons, hc, hd, Bool.not_true, Bool.not_false,
            Bool.false_eq_true, if_false, if_true, List.isEmpty_cons, List.takeWhile_cons,
            List.tail_cons]
    · have hc' : (!isTerm c) = true := by simp [Bool.not_eq_true] at hc ⊢; exact hc
      by_cases hend : (cs.dropWhile (fun x => !(isTerm x))).isEmpty
      · have h1 : termRunsSplit cs = [cs] := by
          rw [termRunsSplit, if_pos hend]
        have h2 : termRunsSplit (c :: cs) = [c :: cs] := by
          rw [termRunsSplit, if_pos (by simpa [List.dropWhile_cons, hc'] using hend)]
        rw [h2]
        simp only [splitTerms, hc, Bool.false_eq_true, if_false, ih, h1]
      · have h1 : termRunsSplit cs =
            cs.takeWhile (fun x => !(isTerm x)) ::
              termRunsSplit (((cs.dropWhile (fun x => !(isTerm x))).tail).dropWhile isTerm) := by
          rw [termRunsSplit, if_neg (by simpa using hend)]
        have h2 : termRunsSplit (c :: cs) =
            (c :: cs.takeWhile (fun x => !(isTerm x))) ::
              termRunsSplit (((cs.dropWhile (fun x => !(isTerm x))).tail).dropWhile isTerm) := by
          rw [termRunsSplit, if_neg (by simpa [List.dropWhile_cons, hc'] using hend)]
          simp [List.takeWhile_cons, List.dropWhile_cons, hc']
        rw [h2]
        simp only [splitTerms, hc, Bool.false_eq_true, if_false, ih, h1]

/-- Filtering before mapping `pstrip` equals mapping then dropping empties. -/
theorem filter_map_pstrip : ∀ (parts : List (List Char)),
    (parts.filter (fun p => !p.isEmpty && !(pstrip p).isEmpty)).map pstrip =
      (parts.map pstrip).filter (fun s => !s.isEmpty) := by
  intro parts
  induction parts with
  | nil => rfl
  | cons p ps ih =>
    by_cases hp : (pstrip p).isEmpty
    · simp [List.filter_cons, hp, ih]
    · rcases p with _ | ⟨x, xs⟩
      · simp [pstrip] at hp
      · simp [List.filter_cons, hp, ih]

/-- Claim C9: the simple mode splits on maximal terminator runs, trims each
piece, drops pieces empty after trimming, yields no empty sentence, and maps
the empty input to the empty list. -/
theorem C9_split_simple (text : List Char) :
    split_sentences text methSimple =
        ((termRunsSplit text).map pstrip).filter (fun s => !s.isEmpty) ∧
      split_sentences [] methSimple = [] ∧
      ∀ s ∈ split_sentences text methSimple, ¬ s = [] := by
  have hmain : ∀ t : List Char, split_sentences t methSimple =
      ((termRunsSplit t).map pstrip).filter (fun s => !s.isEmpty) := by
    intro t
    rcases t with _ | ⟨c, cs⟩
    · rw [termRunsSplit]
      simp [split_sentences, pstrip]
    · unfold split_sentences
      rw [if_neg (by simp), if_neg (by decide)]
      rw [← splitTerms_eq_termRuns]
      exact filter_map_pstrip (splitTerms (c :: cs))
  refine ⟨hmain text, by simp [split_sentences], ?_⟩
  intro s hs
  rw [hmain text] at hs
  have h2 := List.of_mem_filter hs
  rcases s with _ | ⟨x, xs⟩
  · simp at h2
  · simp
